import Mathlib

/-!
# Verification of the meta-ai-orchestrator core

Shallow embedding of the orchestration subsystem of the repository
(crates/common/src/types.rs, crates/common/src/error.rs,
crates/orchestrator/src/{scheduler.rs, dispatcher.rs, dag.rs, lib.rs})
together with proofs about the behaviour that the specification claims.

Modelling conventions:
* `Uuid` task ids are modelled as `Nat` (opaque identifiers with equality).
* Rust `HashMap`/`DashMap` values are modelled as association lists in some
  iteration order; `insert` replaces an existing binding in place,
  `remove` deletes it.
* Wall-clock readings (`Instant::now`, `SystemTime::now`) are modelled by a
  logical clock: a `Nat` counter held in the state that increases with every
  reading.  Durations and metric sums are not modelled.
* Potentially non-terminating loops are modelled with an explicit fuel
  parameter and an `Option` result; `none` means the fuel was exhausted.
-/

set_option maxHeartbeats 1000000

namespace MetaAI

/-! ## Data model (crates/common/src/types.rs) -/

/-- `TaskId` (a Uuid in the source) modelled as a natural number. -/
abbrev TaskId := Nat

/-- `LlmProvider` from types.rs. -/
inductive LlmProvider where
  | openAI
  | claude
  | copilot
  | cursor
  | codeWhisperer
  | localProvider
  deriving DecidableEq, Repr

/-- `TaskStatus` from types.rs. -/
inductive TaskStatus where
  | pending
  | running
  | completed
  | failed
  | cancelled
  | timeout
  deriving DecidableEq, Repr

/-- `Priority` from types.rs; the Rust enum derives `Ord` on the listed
discriminants `Low = 0 < Medium = 1 < High = 2 < Critical = 3`. -/
inductive Priority where
  | low
  | medium
  | high
  | critical
  deriving DecidableEq, Repr

/-- The discriminant of a `Priority`, as assigned in types.rs. -/
def Priority.toNat : Priority → Nat
  | .low => 0
  | .medium => 1
  | .high => 2
  | .critical => 3

/-- The derived `Ord::cmp` on `Priority` (comparison of discriminants). -/
def cmpPriority (a b : Priority) : Ordering := compare a.toNat b.toNat

/-- `Task` from types.rs.  Timestamps are logical clock values; the
JSON metadata map is modelled as a string association list. -/
structure Task where
  id : TaskId
  name : String
  description : Option String
  status : TaskStatus
  priority : Priority
  provider : Option LlmProvider
  createdAt : Nat
  updatedAt : Nat
  metadata : List (String × String)
  deriving DecidableEq, Repr

/-- `LlmResponse` essentials from types.rs (pass-through value object; usage
accounting and latency are opaque to the orchestrator core). -/
structure LlmResponseM where
  requestId : Nat
  content : String
  provider : LlmProvider
  deriving DecidableEq, Repr

/-! ## Errors (crates/common/src/error.rs)

Variants that carry foreign payloads (`reqwest`, `serde_json`, io, anyhow)
are modelled with their message strings. -/

/-- The `Error` enum from error.rs. -/
inductive ErrorM where
  | config (msg : String)
  | agent (msg : String)
  | rag (msg : String)
  | orchestration (msg : String)
  | evaluation (msg : String)
  | timeout (msg : String)
  | rateLimit (msg : String)
  | auth (msg : String)
  | validation (msg : String)
  | network (msg : String)
  | serialization (msg : String)
  | io (msg : String)
  | internal (msg : String)
  | unknown (msg : String)
  deriving DecidableEq, Repr

/-! ## Association-list helpers (model of `HashMap` / `DashMap`) -/

/-- `HashMap::get`: the value stored at `k`, if any. -/
def lookupA {α : Type} (m : List (TaskId × α)) (k : TaskId) : Option α :=
  (m.find? (fun p => p.1 == k)).map (·.2)

/-- `HashMap::remove`: drop the binding at `k`. -/
def removeA {α : Type} (m : List (TaskId × α)) (k : TaskId) : List (TaskId × α) :=
  m.filter (fun p => p.1 != k)

/-- `HashMap::insert`: replace the binding at `k` when present, otherwise
append a new one. -/
def insertA {α : Type} (m : List (TaskId × α)) (k : TaskId) (v : α) : List (TaskId × α) :=
  if m.any (fun p => p.1 == k) then
    m.map (fun p => if p.1 == k then (k, v) else p)
  else
    m ++ [(k, v)]

/-! ## Scheduler (crates/orchestrator/src/scheduler.rs) -/

/-- `PriorityWrapper` from scheduler.rs: the key of the priority queue. -/
structure PriorityWrapper where
  priority : Priority
  timestamp : Nat
  deriving DecidableEq, Repr

/-- `Ord for PriorityWrapper` (scheduler.rs lines 33-41): first compare by
priority, then by timestamp with the *older* (smaller) timestamp greater. -/
def cmpWrapper (a b : PriorityWrapper) : Ordering :=
  match cmpPriority a.priority b.priority with
  | .eq => compare b.timestamp a.timestamp
  | o => o

/-- `ScheduledTask` from scheduler.rs. -/
structure ScheduledTask where
  task : Task
  scheduledAt : Nat
  attemptCount : Nat
  deriving DecidableEq, Repr

/-- State of a `PriorityScheduler`: the priority queue (a map from task id to
its current `PriorityWrapper`, as in the `priority-queue` crate), the task
map, the capacity, the statistics counters that the claims mention, and the
logical clock used for `Instant::now` / `SystemTime::now` readings. -/
structure SchedState where
  queue : List (TaskId × PriorityWrapper)
  tasks : List (TaskId × ScheduledTask)
  maxQueueSize : Nat
  totalScheduled : Nat
  totalRequeued : Nat
  clock : Nat
  deriving DecidableEq, Repr

/-- `PriorityQueue::push` from the `priority-queue` crate: if the item is
already present its priority is *updated*; otherwise a new entry is added. -/
def pushQ (q : List (TaskId × PriorityWrapper)) (id : TaskId) (w : PriorityWrapper) :
    List (TaskId × PriorityWrapper) :=
  if q.any (fun p => p.1 == id) then
    q.map (fun p => if p.1 == id then (id, w) else p)
  else
    q ++ [(id, w)]

/-- `PriorityQueue::pop`: remove and return an entry whose wrapper is maximal
under `cmpWrapper` (the first such entry in iteration order). -/
def popMaxQ : List (TaskId × PriorityWrapper) →
    Option ((TaskId × PriorityWrapper) × List (TaskId × PriorityWrapper))
  | [] => none
  | e :: rest =>
    match popMaxQ rest with
    | none => some (e, [])
    | some (m, r) =>
      if cmpWrapper e.2 m.2 = .lt then some (m, e :: r) else some (e, rest)

/-- A fresh `PriorityScheduler` (scheduler.rs `new`). -/
def initSched (maxQueueSize : Nat) : SchedState :=
  { queue := [], tasks := [], maxQueueSize, totalScheduled := 0, totalRequeued := 0, clock := 0 }

/-- `PriorityScheduler::schedule_task` (scheduler.rs lines 92-124): fail with
`Internal "Task queue is full"` when the queue length is at capacity; otherwise
store the task and push its id with a fresh `(priority, now)` key. -/
def scheduleTask (t : Task) (s : SchedState) : Except ErrorM Unit × SchedState :=
  if s.maxQueueSize ≤ s.queue.length then
    (.error (.internal "Task queue is full"), s)
  else
    let scheduled : ScheduledTask := { task := t, scheduledAt := s.clock, attemptCount := 0 }
    let tasks := insertA s.tasks t.id scheduled
    let queue := pushQ s.queue t.id { priority := t.priority, timestamp := s.clock }
    (.ok (),
      { s with
          queue := queue
          tasks := tasks
          totalScheduled := s.totalScheduled + 1
          clock := s.clock + 1 })

/-- `PriorityScheduler::next_task` (scheduler.rs lines 126-146): pop the
maximal queue entry; when its id is tracked, remove it from the task map,
bump its attempt counter and return the task; otherwise return nothing. -/
def nextTask (s : SchedState) : Option Task × SchedState :=
  match popMaxQ s.queue with
  | none => (none, s)
  | some ((taskId, _), rest) =>
    match lookupA s.tasks taskId with
    | some scheduled =>
      let scheduled' := { scheduled with attemptCount := scheduled.attemptCount + 1 }
      (some scheduled'.task, { s with queue := rest, tasks := removeA s.tasks taskId })
    | none => (none, { s with queue := rest })

/-- `PriorityScheduler::requeue_task` (scheduler.rs lines 148-178):
entry-or-insert the task record, bump its attempt counter, and push the id
back with a fresh key (updating the key when the id is still queued). -/
def requeueTask (t : Task) (s : SchedState) : Except ErrorM Unit × SchedState :=
  let entry : ScheduledTask :=
    match lookupA s.tasks t.id with
    | some st => st
    | none => { task := t, scheduledAt := s.clock, attemptCount := 0 }
  let entry' : ScheduledTask := { entry with task := t, attemptCount := entry.attemptCount + 1 }
  let tasks := insertA s.tasks t.id entry'
  let queue := pushQ s.queue t.id { priority := t.priority, timestamp := s.clock }
  (.ok (),
    { s with
        queue := queue
        tasks := tasks
        totalRequeued := s.totalRequeued + 1
        clock := s.clock + 1 })

/-- Schedule a list of tasks in order (a caller issuing successive
`schedule_task` calls). -/
def scheduleAll (ts : List Task) (s : SchedState) : SchedState :=
  ts.foldl (fun acc t => (scheduleTask t acc).2) s

/-- Repeatedly call `next_task`, collecting the returned tasks. -/
def drainLoop : Nat → SchedState → List Task
  | 0, _ => []
  | fuel + 1, s =>
    match nextTask s with
    | (some t, s') => t :: drainLoop fuel s'
    | (none, _) => []

/-- Drain the whole queue via `next_task`. -/
def drainAll (s : SchedState) : List Task := drainLoop s.queue.length s

/-! ## Dispatcher agent selection (crates/orchestrator/src/dispatcher.rs) -/

/-- The observable face of a worker agent, as consumed by
`TaskDispatcher::select_agent`: its provider identity, the answer of
`is_available`, and the average latency reported by `health_check`
(`none` models a failed health check; latency in whole milliseconds). -/
structure AgentM where
  provider : LlmProvider
  availableFlag : Bool
  healthLatencyMs : Option Nat
  deriving DecidableEq, Repr

/-- `SelectionStrategy` from core/src/agent.rs. -/
inductive Strategy where
  | roundRobin
  | lowestLatency
  | bestMatch
  | costOptimized
  | random
  deriving DecidableEq, Repr

/-- `TaskDispatcher::select_agent` (dispatcher.rs lines 88-159).
`counter` is the shared `request_counter` (`fetch_add` returns the old value
and bumps the stored one); `rngIndex` supplies the draw made by
`rand::thread_rng().gen_range(0..len)` for the `Random` arm.  Returns the
choice together with the new counter value. -/
def selectAgent (strategy : Strategy) (reqProvider : LlmProvider) (agents : List AgentM)
    (counter : Nat) (rngIndex : Nat) : Except ErrorM AgentM × Nat :=
  let availableAgents := agents.filter (·.availableFlag)
  match availableAgents with
  | [] => (.error (.agent "No available agents"), counter)
  | a :: rest =>
    match strategy with
    | .roundRobin =>
      let index := counter % (a :: rest).length
      (.ok ((a :: rest).get ⟨index, Nat.mod_lt _ (by simp)⟩), counter + 1)
    | .lowestLatency =>
      let best := (a :: rest).foldl
        (fun (acc : AgentM × Option Nat) ag =>
          match ag.healthLatencyMs with
          | some lat =>
            match acc.2 with
            | none => (ag, some lat)
            | some bestLat => if lat < bestLat then (ag, some lat) else acc
          | none => acc)
        (a, none)
      (.ok best.1, counter)
    | .bestMatch =>
      match (a :: rest).find? (fun ag => ag.provider == reqProvider) with
      | some ag => (.ok ag, counter)
      | none => (.ok a, counter)
    | .costOptimized =>
      let index := counter % (a :: rest).length
      (.ok ((a :: rest).get ⟨index, Nat.mod_lt _ (by simp)⟩), counter + 1)
    | .random =>
      let index := rngIndex % (a :: rest).length
      (.ok ((a :: rest).get ⟨index, Nat.mod_lt _ (by simp)⟩), counter)

/-! ## Retry loop (crates/orchestrator/src/lib.rs, `execute_task_with_retry`) -/

/-- Outcome of one attempt of the retry loop: the selector may fail to choose
a worker, or the chosen worker's `submit` may fail or succeed. -/
inductive AttemptOutcome where
  | selectorErr (e : ErrorM)
  | submitErr (e : ErrorM)
  | success (r : LlmResponseM)
  deriving DecidableEq, Repr

/-- The `while attempts < retry_attempts` loop of `execute_task_with_retry`
(lib.rs lines 254-301), with `remaining = retry_attempts - attempts` as the
structural argument.  `oracle n` is what attempt number `n` observes.
Returns the final result together with the number of attempts made and the
number of `retry_delay` sleeps performed (a sleep happens only in the
submit-failure branch and only when attempts remain). -/
def retryLoopAux (oracle : Nat → AttemptOutcome) :
    Nat → Nat → Option ErrorM → Nat → (Except ErrorM LlmResponseM × Nat × Nat)
  | 0, attempts, lastError, sleeps =>
    (match lastError with
     | some e => .error e
     | none => .error (.internal "Max retry attempts reached"), attempts, sleeps)
  | remaining + 1, attempts, _lastError, sleeps =>
    let a := attempts + 1
    match oracle a with
    | .success r => (.ok r, a, sleeps)
    | .submitErr e =>
      retryLoopAux oracle remaining a (some e) (if remaining = 0 then sleeps else sleeps + 1)
    | .selectorErr e => retryLoopAux oracle remaining a (some e) sleeps

/-- `execute_task_with_retry` (lib.rs lines 254-301), observed through the
attempt oracle: start with zero attempts, no recorded error, no sleeps. -/
def executeTaskWithRetry (retryAttempts : Nat) (oracle : Nat → AttemptOutcome) :
    Except ErrorM LlmResponseM × Nat × Nat :=
  retryLoopAux oracle retryAttempts 0 none 0

/-! ## Orchestrator active-task table (crates/orchestrator/src/lib.rs) -/

/-- The status-update step of the background loop (lib.rs lines 139-146).
The source runs `active_tasks.remove(&task_id)` and then assigns the new
status and timestamp to the *moved-out copy* bound by the `if let`; the
copy is dropped at the end of the block and never written back. -/
def finishTaskStep (activeTasks : List (TaskId × Task)) (taskId : TaskId)
    (resultOk : Bool) (now : Nat) : List (TaskId × Task) :=
  match lookupA activeTasks taskId with
  | some t =>
    let _finished : Task :=
      { t with
          status := if resultOk then TaskStatus.completed else TaskStatus.failed
          updatedAt := now }
    removeA activeTasks taskId
  | none => activeTasks

/-- `MetaAIOrchestrator::get_task_status` (lib.rs lines 228-233). -/
def getTaskStatus (activeTasks : List (TaskId × Task)) (taskId : TaskId) :
    Except ErrorM TaskStatus :=
  match lookupA activeTasks taskId with
  | some t => .ok t.status
  | none => .error (.internal s!"Task {taskId} not found")

/-- One iteration of the polling loop inside `execute_task`
(lib.rs lines 187-199): the loop returns the stored status only when it is
terminal (`Completed`, `Failed` or `Cancelled`); otherwise it keeps polling. -/
def pollForTerminal (activeTasks : List (TaskId × Task)) (taskId : TaskId) :
    Option TaskStatus :=
  match lookupA activeTasks taskId with
  | some t =>
    match t.status with
    | .completed => some .completed
    | .failed => some .failed
    | .cancelled => some .cancelled
    | _ => none
  | none => none

/-! ## DAG executor (crates/orchestrator/src/dag.rs)

`build_graph` numbers the nodes of the `TaskDag` and adds exactly those edges
whose two endpoints name existing node keys; the petgraph `DiGraph` is
modelled by the pair (list of node ids, list of id pairs).  The edge
condition payload (`unwrap_or(OnSuccess)`) is carried by no algorithm in the
file, so the edge list drops it. -/

/-- `EdgeCondition` from core/src/orchestrator.rs. -/
inductive EdgeCondition where
  | onSuccess
  | onFailure
  | always
  | custom (tag : String)
  deriving DecidableEq, Repr

/-- `DagNode` from core/src/orchestrator.rs. -/
structure DagNodeM where
  taskId : TaskId
  task : Task
  dependencies : List TaskId
  dependents : List TaskId
  status : TaskStatus
  deriving DecidableEq, Repr

/-- `DagEdge` from core/src/orchestrator.rs. -/
structure DagEdgeM where
  edgeFrom : TaskId
  edgeTo : TaskId
  condition : Option EdgeCondition
  deriving DecidableEq, Repr

/-- `TaskDag` from core/src/orchestrator.rs; the node `HashMap` is modelled
as an association list in iteration order. -/
structure TaskDagM where
  nodes : List (TaskId × DagNodeM)
  edges : List DagEdgeM
  deriving DecidableEq, Repr

/-- The node keys of the dag, in iteration order (`build_graph` node loop). -/
def nodeIds (dag : TaskDagM) : List TaskId := dag.nodes.map (·.1)

/-- The edge set produced by `build_graph` (dag.rs lines 35-53): edges whose
`from`/`to` both name existing node keys; all other edges are dropped. -/
def graphEdges (dag : TaskDagM) : List (TaskId × TaskId) :=
  (dag.edges.filter
    (fun e => (nodeIds dag).contains e.edgeFrom && (nodeIds dag).contains e.edgeTo)).map
    (fun e => (e.edgeFrom, e.edgeTo))

/-- Number of graph edges pointing to `v`
(`edges_directed(v, Incoming).count()`). -/
def incomingCount (edges : List (TaskId × TaskId)) (v : TaskId) : Nat :=
  (edges.filter (fun e => e.2 == v)).length

/-- The root nodes: those with no incoming edge. -/
def rootsOf (nodes : List TaskId) (edges : List (TaskId × TaskId)) : List TaskId :=
  nodes.filter (fun v => incomingCount edges v == 0)

/-- One elimination pass: keep exactly the nodes that still have an incoming
edge from a surviving node. -/
def elimStep (edges : List (TaskId × TaskId)) (cur : List TaskId) : List TaskId :=
  cur.filter (fun v => edges.any (fun e => e.2 == v && cur.contains e.1))

/-- Iterate `elimStep` to a fixed point (at most `fuel` passes; each
non-fixpoint pass strictly shrinks the list, so `nodes.length` passes
always reach the fixed point). -/
def elimLoop (edges : List (TaskId × TaskId)) : Nat → List TaskId → List TaskId
  | 0, cur => cur
  | fuel + 1, cur =>
    let nxt := elimStep edges cur
    if nxt.length == cur.length then cur else elimLoop edges fuel nxt

/-- `petgraph::algo::is_cyclic_directed`: whether the graph contains a
directed cycle, decided by Kahn-style source elimination (a nonempty fixed
point is exactly a subgraph in which every node has a predecessor). -/
def hasCycleB (nodes : List TaskId) (edges : List (TaskId × TaskId)) : Bool :=
  !(elimLoop edges nodes.length nodes).isEmpty

/-- The DFS of `find_unreachable_nodes` (dag.rs lines 90-115): `stack` holds
the pending nodes (head = top), `visited` the already-visited ones. -/
def reachLoop (edges : List (TaskId × TaskId)) :
    Nat → List TaskId → List TaskId → List TaskId
  | 0, _, visited => visited
  | fuel + 1, stack, visited =>
    match stack with
    | [] => visited
    | node :: rest =>
      if visited.contains node then reachLoop edges fuel rest visited
      else
        let succs := (edges.filter (fun e => e.1 == node)).map (·.2)
        reachLoop edges fuel (succs ++ rest) (visited ++ [node])

/-- `find_unreachable_nodes` (dag.rs lines 90-115): nodes not reached by a
forward traversal from the root set.  The DFS visits each node at most once
and pushes at most one stack entry per root and per edge, so the given fuel
always suffices. -/
def findUnreachableNodes (nodes : List TaskId) (edges : List (TaskId × TaskId)) :
    List TaskId :=
  let visited := reachLoop edges (nodes.length + edges.length + 1) (rootsOf nodes edges) []
  nodes.filter (fun v => !(visited.contains v))

/-- The edge-relaxation pass of `calculate_depth` for one popped queue entry
(dag.rs lines 75-83): walk the outgoing edges of `node`; a target that is new
or has a smaller recorded depth gets depth `depth + 1` and is pushed. -/
def depthStep (edges : List (TaskId × TaskId)) (node : TaskId) (depth : Nat)
    (queue : List (TaskId × Nat)) (depths : List (TaskId × Nat)) :
    List (TaskId × Nat) × List (TaskId × Nat) :=
  edges.foldl
    (fun acc e =>
      if e.1 == node then
        let newDepth := depth + 1
        match lookupA acc.2 e.2 with
        | none => (acc.1 ++ [(e.2, newDepth)], insertA acc.2 e.2 newDepth)
        | some d0 =>
          if d0 < newDepth then (acc.1 ++ [(e.2, newDepth)], insertA acc.2 e.2 newDepth)
          else acc
      else acc)
    (queue, depths)

/-- The BFS loop of `calculate_depth` (dag.rs lines 72-84), fueled: `none`
means the loop had not finished after `fuel` iterations (the source loop has
no other exit, so `(∀ fuel, _ = none)` is non-termination of the source). -/
def depthLoop (edges : List (TaskId × TaskId)) :
    Nat → List (TaskId × Nat) → List (TaskId × Nat) → Nat → Option Nat
  | 0, _, _, _ => none
  | fuel + 1, queue, depths, maxDepth =>
    match queue with
    | [] => some maxDepth
    | (node, depth) :: rest =>
      let next := depthStep edges node depth rest depths
      depthLoop edges fuel next.1 next.2 (Nat.max maxDepth depth)

/-- `calculate_depth` (dag.rs lines 56-87): seed the queue and the depth map
with the roots at depth 0, then run the BFS loop. -/
def calculateDepth (fuel : Nat) (nodes : List TaskId) (edges : List (TaskId × TaskId)) :
    Option Nat :=
  let roots := rootsOf nodes edges
  depthLoop edges fuel (roots.map (fun r => (r, 0))) (roots.map (fun r => (r, 0))) 0

/-- `DagValidation` from core/src/orchestrator.rs. -/
structure DagValidationM where
  valid : Bool
  hasCycles : Bool
  unreachableNodes : List TaskId
  maxDepth : Nat
  deriving DecidableEq, Repr

/-- `DagExecutorImpl::validate_dag` (dag.rs lines 172-187), fueled through
`calculate_depth`.  `maxDepthBound` is the executor's `max_depth` field
(10 for `DagExecutorImpl::new`). -/
def validateDagFuel (fuel : Nat) (maxDepthBound : Nat) (dag : TaskDagM) :
    Option DagValidationM :=
  let nodes := nodeIds dag
  let edges := graphEdges dag
  let hasCycles := hasCycleB nodes edges
  let unreachable := findUnreachableNodes nodes edges
  match calculateDepth fuel nodes edges with
  | none => none
  | some maxDepth =>
    some { valid := !hasCycles && unreachable.isEmpty && decide (maxDepth ≤ maxDepthBound)
           hasCycles := hasCycles
           unreachableNodes := unreachable
           maxDepth := maxDepth }

/-- The visiting loop of `topological_sort` (petgraph `Topo`): repeatedly
visit the first remaining node all of whose graph predecessors are done. -/
def topoLoop (edges : List (TaskId × TaskId)) : Nat → List TaskId → List TaskId
  | 0, _ => []
  | fuel + 1, remaining =>
    match remaining.find? (fun v => !(edges.any (fun e => e.2 == v && remaining.contains e.1))) with
    | none => []
    | some v => v :: topoLoop edges fuel (remaining.erase v)

/-- `DagExecutorImpl::topological_sort` (dag.rs lines 189-206): a
`Validation` error on a cyclic graph, otherwise a topological order of the
node ids. -/
def topologicalSort (dag : TaskDagM) : Except ErrorM (List TaskId) :=
  let nodes := nodeIds dag
  let edges := graphEdges dag
  if hasCycleB nodes edges then .error (.validation "DAG contains cycles")
  else .ok (topoLoop edges nodes.length nodes)

/-- `DagExecutionResult` from core/src/orchestrator.rs.  The wall-clock
`total_duration_ms` field is not modelled. -/
structure DagExecutionResultM where
  completedTasks : List TaskId
  failedTasks : List TaskId
  skippedTasks : List TaskId
  deriving DecidableEq, Repr

/-- `DagExecutorImpl::execute_dag` (dag.rs lines 121-170): validate (fueled),
reject an invalid dag, compute the topological order, then walk it marking a
task completed when every dependency's *stored* node status equals
`Completed` (the simulated execution always succeeds) and skipped otherwise.
The node map is never written during the walk, exactly as in the source
(`dag` is an immutable borrow there). -/
def executeDagFuel (fuel : Nat) (maxDepthBound : Nat) (dag : TaskDagM) :
    Option (Except ErrorM DagExecutionResultM) :=
  match validateDagFuel fuel maxDepthBound dag with
  | none => none
  | some validation =>
    if !validation.valid then some (.error (.validation "Invalid DAG structure"))
    else
      match topologicalSort dag with
      | .error e => some (.error e)
      | .ok order =>
        let res := order.foldl
          (fun (acc : List TaskId × List TaskId) taskId =>
            match lookupA dag.nodes taskId with
            | some node =>
              if node.dependencies.all
                  (fun depId =>
                    match lookupA dag.nodes depId with
                    | some dep => dep.status == TaskStatus.completed
                    | none => false)
              then (acc.1 ++ [taskId], acc.2)
              else (acc.1, acc.2 ++ [taskId])
            | none => acc)
          ([], [])
        some (.ok { completedTasks := res.1, failedTasks := [], skippedTasks := res.2 })

/-- The dag with its dangling edges (edges naming a missing node key)
removed.  This definition follows the words of claim C10 and is compared
with the behaviour of the source functions. -/
def removeDanglingEdges (dag : TaskDagM) : TaskDagM :=
  { dag with
      edges := dag.edges.filter
        (fun e => (nodeIds dag).contains e.edgeFrom && (nodeIds dag).contains e.edgeTo) }

/-! ## Concrete builders used by witnesses and counterexamples -/

/-- A task with the given id and priority and neutral remaining fields
(the shape `Task::default()` gives, with a chosen id and priority). -/
def mkTask (id : TaskId) (priority : Priority) : Task :=
  { id := id, name := "", description := none, status := .pending, priority := priority,
    provider := none, createdAt := 0, updatedAt := 0, metadata := [] }

/-- The chain dag `A → B → C` (ids 1, 2, 3) with every node `Pending`. -/
def chainDag : TaskDagM :=
  { nodes :=
      [ (1, { taskId := 1, task := mkTask 1 .medium, dependencies := [],
              dependents := [2], status := .pending }),
        (2, { taskId := 2, task := mkTask 2 .medium, dependencies := [1],
              dependents := [3], status := .pending }),
        (3, { taskId := 3, task := mkTask 3 .medium, dependencies := [2],
              dependents := [], status := .pending }) ],
    edges := [ { edgeFrom := 1, edgeTo := 2, condition := some .onSuccess },
               { edgeFrom := 2, edgeTo := 3, condition := some .onSuccess } ] }

/-! ## General lemmas about the association-list model -/

theorem lookupA_removeA_self {α : Type} (m : List (TaskId × α)) (k : TaskId) :
    lookupA (removeA m k) k = none := by
  simp only [lookupA, removeA, Option.map_eq_none']
  rw [List.find?_eq_none]
  intro p hp
  rcases List.mem_filter.mp hp with ⟨-, hne⟩
  simp only [bne_iff_ne, ne_eq] at hne
  simpa using hne

/-! ## Claim theorems -/

/-- C8: the `CostOptimized` arm of `select_agent` is observationally the
same function as the `RoundRobin` arm: same chosen agent (old counter value
modulo the size of the available set) and same counter increment, for every
request provider, candidate list, counter value and random draw. -/
theorem selectAgent_costOptimized_eq_roundRobin (reqProvider : LlmProvider)
    (agents : List AgentM) (counter rngIndex : Nat) :
    selectAgent .costOptimized reqProvider agents counter rngIndex =
      selectAgent .roundRobin reqProvider agents counter rngIndex := by
  unfold selectAgent
  cases agents.filter (·.availableFlag) <;> rfl

/-- C4: with `retry_attempts = 3`, a worker whose submit fails on the first
two attempts and succeeds on the third yields that success after exactly 3
attempts with 2 sleeps; a worker that always fails yields the error of the
third (last) attempt after exactly 3 attempts and 2 sleeps (none after the
final attempt). -/
theorem executeTaskWithRetry_three_attempts (errAt : Nat → ErrorM) (resp : LlmResponseM) :
    executeTaskWithRetry 3
        (fun n => if n ≤ 2 then .submitErr (errAt n) else .success resp) =
      (.ok resp, 3, 2) ∧
    executeTaskWithRetry 3 (fun n => .submitErr (errAt n)) =
      (.error (errAt 3), 3, 2) := by
  constructor <;> rfl

/-- C1 is false of the code (a bug): after the execution unit of the
background loop finishes, the `if let Some((_, mut task)) = active_tasks.remove(..)`
block mutates the *removed copy* of the task and drops it, so the active-task
table no longer holds the task at all — `get_task_status` answers "not
found" and the `execute_task` polling loop can never observe a terminal
status (it can only end in the caller-side `Timeout`).  This holds for every
table state, task id and outcome. -/
theorem finishTaskStep_drops_outcome (m : List (TaskId × Task)) (id : TaskId)
    (resultOk : Bool) (now : Nat) :
    lookupA (finishTaskStep m id resultOk now) id = none ∧
    pollForTerminal (finishTaskStep m id resultOk now) id = none ∧
    getTaskStatus (finishTaskStep m id resultOk now) id =
      .error (.internal s!"Task {id} not found") := by
  have h : lookupA (finishTaskStep m id resultOk now) id = none := by
    unfold finishTaskStep
    cases hm : lookupA m id with
    | none => exact hm
    | some t => exact lookupA_removeA_self m id
  exact ⟨h, by simp [pollForTerminal, h], by simp [getTaskStatus, h]⟩

/-- C2 is false of the code (a bug): on the all-`Pending` chain `1 → 2 → 3`
the topological order is `[1, 2, 3]` as claimed, but `execute_dag` completes
only the root: the dependency check reads the *stored* node statuses, which
are never updated when a node's simulated execution succeeds, so nodes 2 and
3 are skipped instead of completed. -/
theorem executeDag_chain_skips_dependents :
    topologicalSort chainDag = .ok [1, 2, 3] ∧
    executeDagFuel 100 10 chainDag =
      some (.ok { completedTasks := [1], failedTasks := [], skippedTasks := [2, 3] }) := by
  constructor <;> rfl

/-- C7: under `BestMatch` with a non-empty available set, `select_agent`
returns (without touching the counter) an agent whose provider equals the
requested provider whenever one is available, wherever it sits in the list;
when no available agent matches, it returns the first available agent. -/
theorem selectAgent_bestMatch_spec (agents : List AgentM) (reqProvider : LlmProvider)
    (counter rngIndex : Nat) (hne : agents.filter (·.availableFlag) ≠ []) :
    ((∃ a ∈ agents.filter (·.availableFlag), a.provider = reqProvider) →
      ∃ a, selectAgent .bestMatch reqProvider agents counter rngIndex = (.ok a, counter) ∧
        a.provider = reqProvider) ∧
    ((∀ a ∈ agents.filter (·.availableFlag), a.provider ≠ reqProvider) →
      ∃ a, selectAgent .bestMatch reqProvider agents counter rngIndex = (.ok a, counter) ∧
        (agents.filter (·.availableFlag)).head? = some a) := by
  cases hl : agents.filter (·.availableFlag) with
  | nil => exact absurd hl hne
  | cons a rest =>
    constructor
    · rintro ⟨b, hb, hbp⟩
      cases hf : (a :: rest).find? (fun ag => ag.provider == reqProvider) with
      | none =>
        exact absurd (by simpa using hbp)
          (by simpa using List.find?_eq_none.mp hf b hb)
      | some ag =>
        refine ⟨ag, ?_, by simpa using List.find?_some hf⟩
        unfold selectAgent
        rw [hl]
        simp only [hf]
    · intro hnone
      cases hf : (a :: rest).find? (fun ag => ag.provider == reqProvider) with
      | none =>
        refine ⟨a, ?_, rfl⟩
        unfold selectAgent
        rw [hl]
        simp only [hf]
      | some ag =>
        have hmem := List.mem_of_find?_eq_some hf
        have := hnone ag (hl ▸ hmem)
        exact absurd (by simpa using List.find?_some hf) this

/-- Witness for C7 at a concrete input: two available agents, the requested
provider matching the second one. -/
theorem selectAgent_bestMatch_spec_witness :
    ∃ a, selectAgent .bestMatch .claude
        [ { provider := .openAI, availableFlag := true, healthLatencyMs := none },
          { provider := .claude, availableFlag := true, healthLatencyMs := none } ] 0 0 =
        (.ok a, 0) ∧ a.provider = .claude :=
  (selectAgent_bestMatch_spec _ _ _ _ (by decide)).1 (by decide)

/-! ## Lemmas about the map and queue operations -/

theorem pushQ_eq_insertA (q : List (TaskId × PriorityWrapper)) (id : TaskId)
    (w : PriorityWrapper) : pushQ q id w = insertA q id w := rfl

theorem lookupA_cons {α : Type} (p : TaskId × α) (m : List (TaskId × α)) (k : TaskId) :
    lookupA (p :: m) k = if p.1 == k then some p.2 else lookupA m k := by
  by_cases h : (p.1 == k) = true
  · simp [lookupA, List.find?_cons, h]
  · have hb : (p.1 == k) = false := by simpa using h
    simp [lookupA, List.find?_cons, hb]

theorem lookupA_map_replace_self {α : Type} (m : List (TaskId × α)) (k : TaskId) (v : α) :
    lookupA (m.map (fun p => if p.1 == k then (k, v) else p)) k =
      if m.any (fun p => p.1 == k) then some v else none := by
  induction m with
  | nil => simp [lookupA]
  | cons p m ih =>
    rw [List.map_cons]
    by_cases hp : (p.1 == k) = true
    · rw [if_pos hp, lookupA_cons]
      simp [List.any_cons, hp]
    · have hb : (p.1 == k) = false := by simpa using hp
      rw [if_neg (by simp [hb]), lookupA_cons, if_neg (by simp [hb]), ih, List.any_cons, hb,
        Bool.false_or]

theorem lookupA_map_replace_ne {α : Type} (m : List (TaskId × α)) (k k' : TaskId) (v : α)
    (h : k' ≠ k) :
    lookupA (m.map (fun p => if p.1 == k then (k, v) else p)) k' = lookupA m k' := by
  induction m with
  | nil => simp [lookupA]
  | cons p m ih =>
    rw [List.map_cons, lookupA_cons (m := m)]
    by_cases hp : (p.1 == k) = true
    · have hpk : p.1 = k := by simpa using hp
      have hk : (k == k') = false := by simpa using (Ne.symm h)
      have hp' : (p.1 == k') = false := by simpa [hpk] using (Ne.symm h)
      rw [if_pos hp, lookupA_cons, ih]
      simp [hk, hp']
    · have hb : (p.1 == k) = false := by simpa using hp
      rw [if_neg (by simp [hb]), lookupA_cons, ih]

theorem lookupA_insertA_self {α : Type} (m : List (TaskId × α)) (k : TaskId) (v : α) :
    lookupA (insertA m k v) k = some v := by
  unfold insertA
  by_cases h : m.any (fun p => p.1 == k)
  · rw [if_pos h, lookupA_map_replace_self, if_pos h]
  · rw [if_neg h]
    have hnone : m.find? (fun p => p.1 == k) = none := by
      rw [List.find?_eq_none]
      intro p hp hb
      exact h (List.any_eq_true.mpr ⟨p, hp, hb⟩)
    simp [lookupA, List.find?_append, hnone]

theorem lookupA_insertA_ne {α : Type} (m : List (TaskId × α)) (k k' : TaskId) (v : α)
    (h : k' ≠ k) : lookupA (insertA m k v) k' = lookupA m k' := by
  unfold insertA
  by_cases hm : m.any (fun p => p.1 == k)
  · rw [if_pos hm, lookupA_map_replace_ne _ _ _ _ h]
  · rw [if_neg hm]
    have hk : (k == k') = false := by simpa using (Ne.symm h)
    simp [lookupA, List.find?_append, hk]

theorem lookupA_removeA_ne {α : Type} (m : List (TaskId × α)) (k k' : TaskId)
    (h : k' ≠ k) : lookupA (removeA m k) k' = lookupA m k' := by
  induction m with
  | nil => simp [lookupA, removeA]
  | cons p m ih =>
    rw [removeA, List.filter_cons]
    by_cases hp : (p.1 == k) = true
    · have hpk : p.1 = k := by simpa using hp
      have hp' : (p.1 == k') = false := by
        rw [hpk]
        simpa using (Ne.symm h)
      rw [if_neg (by simp [hpk]), lookupA_cons, hp']
      rw [removeA] at ih
      simp [ih]
    · have hne : p.1 ≠ k := by simpa using hp
      rw [if_pos (by simpa using bne_iff_ne.mpr hne), lookupA_cons, lookupA_cons]
      rw [removeA] at ih
      rw [ih]

theorem insertA_keys_of_mem {α : Type} (m : List (TaskId × α)) (k : TaskId) (v : α)
    (h : m.any (fun p => p.1 == k)) : (insertA m k v).map (·.1) = m.map (·.1) := by
  unfold insertA
  rw [if_pos h, List.map_map]
  refine List.map_congr_left ?_
  intro p _
  by_cases hp : p.1 = k <;> simp [hp]

theorem insertA_keys_of_not_mem {α : Type} (m : List (TaskId × α)) (k : TaskId) (v : α)
    (h : ¬ m.any (fun p => p.1 == k)) :
    (insertA m k v).map (·.1) = m.map (·.1) ++ [k] := by
  unfold insertA
  rw [if_neg h, List.map_append]
  rfl

theorem insertA_length_of_mem {α : Type} (m : List (TaskId × α)) (k : TaskId) (v : α)
    (h : m.any (fun p => p.1 == k)) : (insertA m k v).length = m.length := by
  unfold insertA
  rw [if_pos h, List.length_map]

theorem insertA_keys_nodup {α : Type} (m : List (TaskId × α)) (k : TaskId) (v : α)
    (h : (m.map (·.1)).Nodup) : ((insertA m k v).map (·.1)).Nodup := by
  by_cases hm : m.any (fun p => p.1 == k)
  · rw [insertA_keys_of_mem _ _ _ hm]
    exact h
  · rw [insertA_keys_of_not_mem _ _ _ hm]
    have hk : k ∉ m.map (·.1) := by
      intro hmem
      rcases List.mem_map.mp hmem with ⟨p, hp, hpk⟩
      exact hm (List.any_eq_true.mpr ⟨p, hp, by simpa using hpk⟩)
    rw [List.nodup_append]
    refine ⟨h, List.nodup_singleton k, ?_⟩
    intro x hx hx'
    rcases List.mem_singleton.mp hx' with rfl
    exact hk hx

theorem popMaxQ_eq_none_iff (l : List (TaskId × PriorityWrapper)) :
    popMaxQ l = none ↔ l = [] := by
  cases l with
  | nil => simp [popMaxQ]
  | cons e rest =>
    simp only [popMaxQ]
    cases popMaxQ rest with
    | none => simp
    | some mr =>
      obtain ⟨m, r⟩ := mr
      by_cases hlt : cmpWrapper e.2 m.2 = .lt <;> simp [hlt]

theorem popMaxQ_perm (l : List (TaskId × PriorityWrapper))
    (m : TaskId × PriorityWrapper) (r : List (TaskId × PriorityWrapper))
    (h : popMaxQ l = some (m, r)) : l.Perm (m :: r) := by
  induction l generalizing m r with
  | nil => simp [popMaxQ] at h
  | cons e rest ih =>
    cases hrest : popMaxQ rest with
    | none =>
      have hr : rest = [] := (popMaxQ_eq_none_iff rest).mp hrest
      subst hr
      simp only [popMaxQ, Option.some.injEq, Prod.mk.injEq] at h
      rw [← h.1, ← h.2]
    | some mr =>
      obtain ⟨m', r'⟩ := mr
      simp only [popMaxQ, hrest] at h
      by_cases hlt : cmpWrapper e.2 m'.2 = .lt
      · rw [if_pos hlt] at h
        simp only [Option.some.injEq, Prod.mk.injEq] at h
        rw [← h.1, ← h.2]
        exact ((ih m' r' hrest).cons e).trans (List.Perm.swap m' e r')
      · rw [if_neg hlt] at h
        simp only [Option.some.injEq, Prod.mk.injEq] at h
        rw [← h.1, ← h.2]

theorem popMaxQ_length (l : List (TaskId × PriorityWrapper))
    (m : TaskId × PriorityWrapper) (r : List (TaskId × PriorityWrapper))
    (h : popMaxQ l = some (m, r)) : l.length = r.length + 1 := by
  simpa using (popMaxQ_perm l m r h).length_eq

/-- The comparison of scheduler keys, in arithmetic form. -/
theorem cmpWrapper_lt_iff (a b : PriorityWrapper) :
    cmpWrapper a b = .lt ↔
      (a.priority.toNat < b.priority.toNat ∨
       (a.priority.toNat = b.priority.toNat ∧ b.timestamp < a.timestamp)) := by
  unfold cmpWrapper cmpPriority
  cases hc : compare a.priority.toNat b.priority.toNat with
  | lt =>
    have h := Nat.compare_eq_lt.mp hc
    simp only [true_iff]
    exact Or.inl h
  | eq =>
    have h := Nat.compare_eq_eq.mp hc
    rw [Nat.compare_eq_lt]
    constructor
    · intro ht
      exact Or.inr ⟨h, ht⟩
    · rintro (hlt | ⟨-, ht⟩)
      · omega
      · exact ht
  | gt =>
    have h := Nat.compare_eq_gt.mp hc
    constructor
    · intro hfalse
      cases hfalse
    · rintro (hlt | ⟨heq, -⟩) <;> omega

theorem popMaxQ_max (l : List (TaskId × PriorityWrapper))
    (m : TaskId × PriorityWrapper) (r : List (TaskId × PriorityWrapper))
    (h : popMaxQ l = some (m, r)) : ∀ x ∈ l, cmpWrapper m.2 x.2 ≠ .lt := by
  induction l generalizing m r with
  | nil => simp [popMaxQ] at h
  | cons e rest ih =>
    cases hrest : popMaxQ rest with
    | none =>
      have hr : rest = [] := (popMaxQ_eq_none_iff rest).mp hrest
      subst hr
      simp only [popMaxQ, Option.some.injEq, Prod.mk.injEq] at h
      obtain ⟨rfl, rfl⟩ := h
      intro x hx
      rcases List.mem_cons.mp hx with rfl | hx
      · intro hcon
        rw [cmpWrapper_lt_iff] at hcon
        omega
      · simp at hx
    | some mr =>
      obtain ⟨m', r'⟩ := mr
      simp only [popMaxQ, hrest] at h
      by_cases hlt : cmpWrapper e.2 m'.2 = .lt
      · rw [if_pos hlt] at h
        simp only [Option.some.injEq, Prod.mk.injEq] at h
        obtain ⟨rfl, rfl⟩ := h
        intro x hx
        rcases List.mem_cons.mp hx with rfl | hx
        · intro hcon
          rw [cmpWrapper_lt_iff] at hcon hlt
          omega
        · exact ih m' r' hrest x hx
      · rw [if_neg hlt] at h
        simp only [Option.some.injEq, Prod.mk.injEq] at h
        obtain ⟨rfl, rfl⟩ := h
        intro x hx
        rcases List.mem_cons.mp hx with rfl | hx
        · intro hcon
          rw [cmpWrapper_lt_iff] at hcon
          omega
        · have hmx := ih m' r' hrest x hx
          intro hcon
          rw [cmpWrapper_lt_iff] at hcon
          have hlt' : ¬ (e.2.priority.toNat < m'.2.priority.toNat ∨
              (e.2.priority.toNat = m'.2.priority.toNat ∧ m'.2.timestamp < e.2.timestamp)) :=
            fun hc => hlt ((cmpWrapper_lt_iff e.2 m'.2).mpr hc)
          have hmx' : ¬ (m'.2.priority.toNat < x.2.priority.toNat ∨
              (m'.2.priority.toNat = x.2.priority.toNat ∧ x.2.timestamp < m'.2.timestamp)) :=
            fun hc => hmx ((cmpWrapper_lt_iff m'.2 x.2).mpr hc)
          omega

/-! ## Small projection lemmas for the scheduler operations -/

theorem insertA_length_of_not_mem {α : Type} (m : List (TaskId × α)) (k : TaskId) (v : α)
    (h : ¬ m.any (fun p => p.1 == k)) : (insertA m k v).length = m.length + 1 := by
  unfold insertA
  rw [if_neg h]
  simp

theorem any_key_eq_mem_keys {α : Type} (m : List (TaskId × α)) (k : TaskId) :
    (m.any (fun p => p.1 == k)) = true ↔ k ∈ m.map (·.1) := by
  rw [List.any_eq_true]
  constructor
  · rintro ⟨p, hp, hb⟩
    exact List.mem_map.mpr ⟨p, hp, by simpa using hb⟩
  · intro h
    rcases List.mem_map.mp h with ⟨p, hp, hpk⟩
    exact ⟨p, hp, by simpa using hpk⟩

theorem scheduleTask_of_full (s : SchedState) (t : Task)
    (h : s.maxQueueSize ≤ s.queue.length) :
    scheduleTask t s = (.error (.internal "Task queue is full"), s) := by
  unfold scheduleTask
  rw [if_pos h]

theorem scheduleTask_of_not_full (s : SchedState) (t : Task)
    (h : ¬ s.maxQueueSize ≤ s.queue.length) :
    scheduleTask t s =
      (.ok (),
        { s with
            queue := pushQ s.queue t.id { priority := t.priority, timestamp := s.clock }
            tasks := insertA s.tasks t.id { task := t, scheduledAt := s.clock, attemptCount := 0 }
            totalScheduled := s.totalScheduled + 1
            clock := s.clock + 1 }) := by
  unfold scheduleTask
  rw [if_neg h]

theorem requeueTask_queue (t : Task) (s : SchedState) :
    (requeueTask t s).2.queue = pushQ s.queue t.id { priority := t.priority, timestamp := s.clock } :=
  rfl

theorem nextTask_state (s : SchedState) (m : TaskId × PriorityWrapper)
    (r : List (TaskId × PriorityWrapper)) (h : popMaxQ s.queue = some (m, r)) :
    (nextTask s).2.queue = r ∧ (nextTask s).2.maxQueueSize = s.maxQueueSize ∧
    (nextTask s).2.clock = s.clock := by
  obtain ⟨mid, mw⟩ := m
  simp only [nextTask, h]
  cases lookupA s.tasks mid <;> exact ⟨rfl, rfl, rfl⟩

theorem nextTask_of_empty (s : SchedState) (h : popMaxQ s.queue = none) :
    nextTask s = (none, s) := by
  unfold nextTask
  rw [h]

/-! ## Claim theorems for the scheduler contract -/

/-- C5: `schedule_task` fails with the queue-full error exactly when the
queue already holds `max_queue_size` entries (the check is `len ≥ capacity`,
and a reachable queue never exceeds the capacity); the failure leaves the
state untouched; a successful call stores the task and bumps the scheduled
counter; and after one `next_task` on a full queue there is room for exactly
one more (fresh) task: the next schedule succeeds and the one after that
fails again. -/
theorem scheduleTask_queueFull_spec (s : SchedState) (t t' : Task) :
    ((scheduleTask t s).1 = .error (.internal "Task queue is full") ↔
      s.maxQueueSize ≤ s.queue.length) ∧
    (s.maxQueueSize ≤ s.queue.length → (scheduleTask t s).2 = s) ∧
    (s.queue.length < s.maxQueueSize →
      (scheduleTask t s).1 = .ok () ∧
      (scheduleTask t s).2.totalScheduled = s.totalScheduled + 1 ∧
      lookupA (scheduleTask t s).2.tasks t.id =
        some { task := t, scheduledAt := s.clock, attemptCount := 0 }) ∧
    (s.queue.length = s.maxQueueSize → 0 < s.maxQueueSize →
      (∀ p ∈ (nextTask s).2.queue, p.1 ≠ t.id) →
      (scheduleTask t (nextTask s).2).1 = .ok () ∧
      (scheduleTask t' (scheduleTask t (nextTask s).2).2).1 =
        .error (.internal "Task queue is full")) := by
  refine ⟨?_, ?_, ?_, ?_⟩
  · constructor
    · intro h
      by_contra hn
      rw [scheduleTask_of_not_full s t hn] at h
      cases h
    · intro h
      rw [scheduleTask_of_full s t h]
  · intro h
    rw [scheduleTask_of_full s t h]
  · intro h
    rw [scheduleTask_of_not_full s t (not_le.mpr h)]
    exact ⟨rfl, rfl, lookupA_insertA_self _ _ _⟩
  · intro hfull hpos hfresh
    cases hq : popMaxQ s.queue with
    | none =>
      have hnil : s.queue = [] := (popMaxQ_eq_none_iff _).mp hq
      rw [hnil] at hfull
      simp at hfull
      omega
    | some mr =>
      obtain ⟨m, r⟩ := mr
      obtain ⟨hq1, hq2, -⟩ := nextTask_state s m r hq
      have hlen : s.queue.length = r.length + 1 := popMaxQ_length _ _ _ hq
      have hfresh' : ¬ (r.any (fun p => p.1 == t.id)) = true := by
        intro hany
        rcases List.any_eq_true.mp hany with ⟨p, hp, hb⟩
        exact hfresh p (by rw [hq1]; exact hp) (by simpa using hb)
      have hn1 : ¬ (nextTask s).2.maxQueueSize ≤ (nextTask s).2.queue.length := by
        rw [hq1, hq2]
        omega
      have hs2 := scheduleTask_of_not_full (nextTask s).2 t hn1
      have hlen2 : (scheduleTask t (nextTask s).2).2.queue.length =
          (nextTask s).2.queue.length + 1 := by
        rw [hs2]
        exact insertA_length_of_not_mem _ _ _ (by rw [hq1]; exact hfresh')
      have hcond2 : (scheduleTask t (nextTask s).2).2.maxQueueSize ≤
          (scheduleTask t (nextTask s).2).2.queue.length := by
        rw [hlen2, hs2]
        rw [hq1, hq2]
        omega
      constructor
      · rw [hs2]
      · rw [scheduleTask_of_full _ t' hcond2]

/-- Witness for C5: capacity 1; after filling the queue, one `next_task`
makes room for exactly one further `schedule_task`. -/
theorem scheduleTask_queueFull_spec_witness :
    (scheduleTask (mkTask 2 .medium)
        (nextTask (scheduleTask (mkTask 1 .low) (initSched 1)).2).2).1 = .ok () ∧
    (scheduleTask (mkTask 3 .high)
        (scheduleTask (mkTask 2 .medium)
          (nextTask (scheduleTask (mkTask 1 .low) (initSched 1)).2).2).2).1 =
      .error (.internal "Task queue is full") :=
  (scheduleTask_queueFull_spec (scheduleTask (mkTask 1 .low) (initSched 1)).2
      (mkTask 2 .medium) (mkTask 3 .high)).2.2.2
    (by decide) (by decide) (by decide)

/-- C9: the priority queue never holds two entries with the same task id:
key-uniqueness is preserved by `schedule_task`, `requeue_task` and
`next_task`; pushing an id that is already queued replaces its stored key
(same queue length, new `(priority, now)` wrapper) instead of duplicating
it; and a popped id is no longer in the queue, so each enqueued id can be
returned at most once before being enqueued again. -/
theorem scheduler_no_duplicate_ids (s : SchedState) (t : Task) :
    ((s.queue.map (·.1)).Nodup →
      ((scheduleTask t s).2.queue.map (·.1)).Nodup ∧
      ((requeueTask t s).2.queue.map (·.1)).Nodup ∧
      ((nextTask s).2.queue.map (·.1)).Nodup) ∧
    (t.id ∈ s.queue.map (·.1) →
      (requeueTask t s).2.queue.length = s.queue.length ∧
      lookupA (requeueTask t s).2.queue t.id =
        some { priority := t.priority, timestamp := s.clock } ∧
      (s.queue.length < s.maxQueueSize →
        (scheduleTask t s).2.queue.length = s.queue.length ∧
        lookupA (scheduleTask t s).2.queue t.id =
          some { priority := t.priority, timestamp := s.clock })) ∧
    ((s.queue.map (·.1)).Nodup →
      ∀ m r, popMaxQ s.queue = some (m, r) → m.1 ∉ r.map (·.1)) := by
  refine ⟨?_, ?_, ?_⟩
  · intro hnd
    refine ⟨?_, ?_, ?_⟩
    · by_cases hfull : s.maxQueueSize ≤ s.queue.length
      · rw [scheduleTask_of_full s t hfull]
        exact hnd
      · rw [scheduleTask_of_not_full s t hfull, pushQ_eq_insertA]
        exact insertA_keys_nodup _ _ _ hnd
    · rw [requeueTask_queue, pushQ_eq_insertA]
      exact insertA_keys_nodup _ _ _ hnd
    · cases hq : popMaxQ s.queue with
      | none =>
        rw [nextTask_of_empty s hq]
        exact hnd
      | some mr =>
        obtain ⟨m, r⟩ := mr
        rw [(nextTask_state s m r hq).1]
        have hperm := (popMaxQ_perm _ _ _ hq).map (·.1)
        have := hperm.nodup_iff.mp hnd
        exact (List.nodup_cons.mp this).2
  · intro hmem
    have hany : (s.queue.any (fun p => p.1 == t.id)) = true :=
      (any_key_eq_mem_keys _ _).mpr hmem
    refine ⟨?_, ?_, ?_⟩
    · rw [requeueTask_queue, pushQ_eq_insertA]
      exact insertA_length_of_mem _ _ _ hany
    · rw [requeueTask_queue, pushQ_eq_insertA]
      exact lookupA_insertA_self _ _ _
    · intro hlt
      rw [scheduleTask_of_not_full s t (not_le.mpr hlt), pushQ_eq_insertA]
      exact ⟨insertA_length_of_mem _ _ _ hany, lookupA_insertA_self _ _ _⟩
  · intro hnd m r hq
    have hperm := (popMaxQ_perm _ _ _ hq).map (·.1)
    have := hperm.nodup_iff.mp hnd
    exact (List.nodup_cons.mp this).1

/-- Witness for C9 at a concrete state: a two-entry queue with distinct ids;
requeuing the queued id 5 keeps the queue at length 2 with an updated key. -/
theorem scheduler_no_duplicate_ids_witness :
    (requeueTask (mkTask 5 .critical)
        { queue := [(5, { priority := Priority.low, timestamp := 0 }),
                    (7, { priority := Priority.high, timestamp := 1 })],
          tasks := [], maxQueueSize := 10, totalScheduled := 2,
          totalRequeued := 0, clock := 2 }).2.queue.length = 2 ∧
    lookupA (requeueTask (mkTask 5 .critical)
        { queue := [(5, { priority := Priority.low, timestamp := 0 }),
                    (7, { priority := Priority.high, timestamp := 1 })],
          tasks := [], maxQueueSize := 10, totalScheduled := 2,
          totalRequeued := 0, clock := 2 }).2.queue 5 =
      some { priority := Priority.critical, timestamp := 2 } := by
  have h := (scheduler_no_duplicate_ids
    { queue := [(5, { priority := Priority.low, timestamp := 0 }),
                (7, { priority := Priority.high, timestamp := 1 })],
      tasks := [], maxQueueSize := 10, totalScheduled := 2,
      totalRequeued := 0, clock := 2 } (mkTask 5 .critical)).2.1 (by decide)
  exact ⟨h.1, h.2.1⟩

/-! ## C10: dangling edges are dropped by `build_graph` -/

theorem graphEdges_removeDangling (dag : TaskDagM) :
    graphEdges (removeDanglingEdges dag) = graphEdges dag := by
  unfold graphEdges removeDanglingEdges nodeIds
  rw [List.filter_filter]
  congr 1
  apply List.filter_congr
  intro e _
  rw [Bool.and_self]

/-- C10: an edge whose endpoint does not name an existing node key is
silently dropped when the graph is built: `validate_dag`,
`topological_sort` and `execute_dag` behave exactly as on the dag with all
dangling edges removed (at every fuel), so a dangling edge never by itself
causes a `Validation` error or changes the report. -/
theorem dag_functions_ignore_dangling (dag : TaskDagM) (fuel bound : Nat) :
    validateDagFuel fuel bound (removeDanglingEdges dag) = validateDagFuel fuel bound dag ∧
    topologicalSort (removeDanglingEdges dag) = topologicalSort dag ∧
    executeDagFuel fuel bound (removeDanglingEdges dag) = executeDagFuel fuel bound dag := by
  have he := graphEdges_removeDangling dag
  have hn : nodeIds (removeDanglingEdges dag) = nodeIds dag := rfl
  have hnodes : (removeDanglingEdges dag).nodes = dag.nodes := rfl
  have hv : validateDagFuel fuel bound (removeDanglingEdges dag) =
      validateDagFuel fuel bound dag := by
    unfold validateDagFuel
    rw [he, hn]
  have ht : topologicalSort (removeDanglingEdges dag) = topologicalSort dag := by
    unfold topologicalSort
    rw [he, hn]
  refine ⟨hv, ht, ?_⟩
  unfold executeDagFuel
  rw [hv, ht, hnodes]

/-! ## C6: a cycle reachable from a root makes `calculate_depth` loop forever

`validate_dag` computes `has_cycles` correctly, but before returning it also
runs `calculate_depth`, whose relaxation `depths[&target] < new_depth` keeps
increasing the recorded depths around any cycle reachable from a root, so the
BFS queue never empties.  The three-node dag `1 → 2 → 3 → 2` exhibits this. -/

/-- The edge list that `build_graph` produces for the dag `1 → 2 → 3 → 2`. -/
def cyc3Edges : List (TaskId × TaskId) := [(1, 2), (2, 3), (3, 2)]

/-- A dag whose root 1 reaches the cycle `2 → 3 → 2`. -/
def rootCycleDag : TaskDagM :=
  { nodes :=
      [ (1, { taskId := 1, task := mkTask 1 .medium, dependencies := [],
              dependents := [2], status := .pending }),
        (2, { taskId := 2, task := mkTask 2 .medium, dependencies := [1, 3],
              dependents := [3], status := .pending }),
        (3, { taskId := 3, task := mkTask 3 .medium, dependencies := [2],
              dependents := [2], status := .pending }) ],
    edges := [ { edgeFrom := 1, edgeTo := 2, condition := some .onSuccess },
               { edgeFrom := 2, edgeTo := 3, condition := some .onSuccess },
               { edgeFrom := 3, edgeTo := 2, condition := some .onSuccess } ] }

theorem depthStep_cyc_2 (a b : Nat) (h : b < a + 1) :
    depthStep cyc3Edges 2 a [] [(1, 0), (2, a), (3, b)] =
      ([(3, a + 1)], [(1, 0), (2, a), (3, a + 1)]) := by
  simp [depthStep, cyc3Edges, lookupA, insertA, h]

theorem depthStep_cyc_3 (a b : Nat) (h : a < b + 1) :
    depthStep cyc3Edges 3 b [] [(1, 0), (2, a), (3, b)] =
      ([(2, b + 1)], [(1, 0), (2, b + 1), (3, b)]) := by
  simp [depthStep, cyc3Edges, lookupA, insertA, h]

theorem depthLoop_cyc (fuel : Nat) : ∀ a b m : Nat,
    (b ≤ a → depthLoop cyc3Edges fuel [(2, a)] [(1, 0), (2, a), (3, b)] m = none) ∧
    (a ≤ b → depthLoop cyc3Edges fuel [(3, b)] [(1, 0), (2, a), (3, b)] m = none) := by
  induction fuel with
  | zero => exact fun a b m => ⟨fun _ => rfl, fun _ => rfl⟩
  | succ f ih =>
    intro a b m
    constructor
    · intro hba
      simp only [depthLoop]
      rw [depthStep_cyc_2 a b (by omega)]
      exact (ih a (a + 1) (Nat.max m a)).2 (by omega)
    · intro hab
      simp only [depthLoop]
      rw [depthStep_cyc_3 a b (by omega)]
      exact (ih (b + 1) b (Nat.max m b)).1 (by omega)

theorem calculateDepth_cyc_diverges :
    ∀ fuel, calculateDepth fuel (nodeIds rootCycleDag) (graphEdges rootCycleDag) = none := by
  intro fuel
  cases fuel with
  | zero => rfl
  | succ f =>
    cases f with
    | zero => rfl
    | succ f' => exact (depthLoop_cyc f' 1 2 1).2 (by omega)

/-- C6 is false of the code (a bug) on part of its domain: the cycle check
itself flags the dag `1 → 2 → 3 → 2` and `topological_sort` duly fails with
the `Validation` error, but `validate_dag` never returns on it: its
`calculate_depth` BFS relaxes depths around the root-reachable cycle
forever (`none` for every fuel), and `execute_dag`, which calls
`validate_dag` first, diverges with it. -/
theorem validateDag_rootCycle_diverges :
    hasCycleB (nodeIds rootCycleDag) (graphEdges rootCycleDag) = true ∧
    (∀ fuel, validateDagFuel fuel 10 rootCycleDag = none) ∧
    topologicalSort rootCycleDag = .error (.validation "DAG contains cycles") ∧
    (∀ fuel, executeDagFuel fuel 10 rootCycleDag = none) := by
  have hv : ∀ fuel, validateDagFuel fuel 10 rootCycleDag = none := by
    intro fuel
    unfold validateDagFuel
    simp only [calculateDepth_cyc_diverges fuel]
  refine ⟨by decide, hv, by rfl, ?_⟩
  intro fuel
  unfold executeDagFuel
  rw [hv fuel]

/-! ## C3: dequeue order is by priority, FIFO within equal priority -/

/-- Invariant tying a scheduler state to the list `full` of tasks that a
caller scheduled on a fresh scheduler: the queue keys are unique and every
queue entry carries the key `(priority, position in full)` of a task of
`full` whose record is retrievable from the task map. -/
def InvP (full : List Task) (s : SchedState) : Prop :=
  (s.queue.map (·.1)).Nodup ∧
  ∀ e ∈ s.queue, ∃ t ∈ full, t.id = e.1 ∧ e.2.priority = t.priority ∧
    e.2.timestamp = (full.map (·.id)).indexOf t.id ∧
    ∃ st, lookupA s.tasks e.1 = some st ∧ st.task = t

theorem nextTask_some (s : SchedState) (mid : TaskId) (mw : PriorityWrapper)
    (r : List (TaskId × PriorityWrapper)) (st : ScheduledTask)
    (h : popMaxQ s.queue = some ((mid, mw), r)) (hl : lookupA s.tasks mid = some st) :
    nextTask s = (some st.task, { s with queue := r, tasks := removeA s.tasks mid }) := by
  simp only [nextTask, h, hl]

theorem drainLoop_empty (f : Nat) (s : SchedState) (h : popMaxQ s.queue = none) :
    drainLoop (f + 1) s = [] := by
  simp only [drainLoop, nextTask_of_empty s h]

theorem drainLoop_cons (f : Nat) (s s' : SchedState) (tk : Task)
    (h : nextTask s = (some tk, s')) :
    drainLoop (f + 1) s = tk :: drainLoop f s' := by
  simp only [drainLoop, h]

theorem InvP_step (full : List Task) (s : SchedState) (mid : TaskId)
    (mw : PriorityWrapper) (r : List (TaskId × PriorityWrapper))
    (h : popMaxQ s.queue = some ((mid, mw), r)) (hinv : InvP full s) :
    InvP full { s with queue := r, tasks := removeA s.tasks mid } := by
  obtain ⟨hnd, hent⟩ := hinv
  have hperm := (popMaxQ_perm _ _ _ h).map (·.1)
  have hnd' := hperm.nodup_iff.mp hnd
  constructor
  · exact (List.nodup_cons.mp hnd').2
  · intro e he
    have heq : e ∈ s.queue :=
      (popMaxQ_perm _ _ _ h).symm.subset (List.mem_cons_of_mem _ he)
    obtain ⟨t, ht, hid, hprio, hts, st, hlook, hsttask⟩ := hent e heq
    have hne : e.1 ≠ mid := by
      intro hcon
      exact (List.nodup_cons.mp hnd').1 (List.mem_map.mpr ⟨e, he, hcon⟩)
    refine ⟨t, ht, hid, hprio, hts, st, ?_, hsttask⟩
    rw [lookupA_removeA_ne s.tasks mid e.1 hne]
    exact hlook

theorem drain_mem (full : List Task) : ∀ (fuel : Nat) (s : SchedState), InvP full s →
    ∀ b ∈ drainLoop fuel s, ∃ e ∈ s.queue,
      b.priority = e.2.priority ∧ (full.map (·.id)).indexOf b.id = e.2.timestamp := by
  intro fuel
  induction fuel with
  | zero =>
    intro s _ b hb
    simp [drainLoop] at hb
  | succ f ih =>
    intro s hinv b hb
    cases hq : popMaxQ s.queue with
    | none =>
      rw [drainLoop_empty f s hq] at hb
      simp at hb
    | some mr =>
      obtain ⟨⟨mid, mw⟩, r⟩ := mr
      have hmem : (mid, mw) ∈ s.queue :=
        (popMaxQ_perm _ _ _ hq).symm.subset (List.mem_cons_self _ _)
      obtain ⟨t, ht, hid, hprio, hts, st, hlook, hsttask⟩ := hinv.2 _ hmem
      have hnext := nextTask_some s mid mw r st hq hlook
      rw [drainLoop_cons f s _ st.task hnext] at hb
      rcases List.mem_cons.mp hb with rfl | hb'
      · refine ⟨(mid, mw), hmem, ?_, ?_⟩
        · rw [hsttask, ← hprio]
        · rw [hsttask, ← hts]
      · obtain ⟨e, he, h1, h2⟩ := ih _ (InvP_step full s mid mw r hq hinv) b hb'
        exact ⟨e, (popMaxQ_perm _ _ _ hq).symm.subset (List.mem_cons_of_mem _ he), h1, h2⟩

theorem drain_pairwise (full : List Task) : ∀ (fuel : Nat) (s : SchedState), InvP full s →
    (drainLoop fuel s).Pairwise (fun a b =>
      b.priority.toNat ≤ a.priority.toNat ∧
      (a.priority = b.priority →
        (full.map (·.id)).indexOf a.id ≤ (full.map (·.id)).indexOf b.id)) := by
  intro fuel
  induction fuel with
  | zero =>
    intro s _
    simp [drainLoop]
  | succ f ih =>
    intro s hinv
    cases hq : popMaxQ s.queue with
    | none =>
      rw [drainLoop_empty f s hq]
      exact List.Pairwise.nil
    | some mr =>
      obtain ⟨⟨mid, mw⟩, r⟩ := mr
      have hmem : (mid, mw) ∈ s.queue :=
        (popMaxQ_perm _ _ _ hq).symm.subset (List.mem_cons_self _ _)
      obtain ⟨t, ht, hid, hprio, hts, st, hlook, hsttask⟩ := hinv.2 _ hmem
      have hnext := nextTask_some s mid mw r st hq hlook
      rw [drainLoop_cons f s _ st.task hnext]
      have hinv' := InvP_step full s mid mw r hq hinv
      refine List.Pairwise.cons ?_ (ih _ hinv')
      intro b hb
      obtain ⟨e, he, hbprio, hbidx⟩ := drain_mem full f _ hinv' b hb
      have hemem : e ∈ s.queue :=
        (popMaxQ_perm _ _ _ hq).symm.subset (List.mem_cons_of_mem _ he)
      have hmax := popMaxQ_max _ _ _ hq e hemem
      have harith : ¬ (mw.priority.toNat < e.2.priority.toNat ∨
          (mw.priority.toNat = e.2.priority.toNat ∧ e.2.timestamp < mw.timestamp)) :=
        fun hc => hmax ((cmpWrapper_lt_iff mw e.2).mpr hc)
      have hstp : st.task.priority = mw.priority := by
        rw [hsttask, ← hprio]
      have hsti : (full.map (·.id)).indexOf st.task.id = mw.timestamp := by
        rw [hsttask, ← hts]
      constructor
      · rw [hbprio, hstp]
        omega
      · intro hpeq
        rw [hsti, hbidx]
        have hpe : mw.priority.toNat = e.2.priority.toNat := by
          rw [← hstp, hpeq, hbprio]
        omega

theorem scheduleTask_proj_of_not_full (s : SchedState) (t : Task)
    (h : ¬ s.maxQueueSize ≤ s.queue.length) :
    (scheduleTask t s).2.queue =
        pushQ s.queue t.id { priority := t.priority, timestamp := s.clock } ∧
    (scheduleTask t s).2.tasks =
        insertA s.tasks t.id { task := t, scheduledAt := s.clock, attemptCount := 0 } ∧
    (scheduleTask t s).2.clock = s.clock + 1 ∧
    (scheduleTask t s).2.maxQueueSize = s.maxQueueSize := by
  rw [scheduleTask_of_not_full s t h]
  exact ⟨rfl, rfl, rfl, rfl⟩

theorem scheduleAll_invp (full : List Task) (hnd : (full.map (·.id)).Nodup) :
    ∀ (rest done : List Task) (s : SchedState),
      full = done ++ rest →
      s.clock = done.length →
      s.queue.length ≤ done.length →
      full.length ≤ s.maxQueueSize →
      InvP full s →
      (∀ u ∈ rest, ∀ p ∈ s.queue, p.1 ≠ u.id) →
      InvP full (scheduleAll rest s) := by
  intro rest
  induction rest with
  | nil =>
    intro done s _ _ _ _ hinv _
    exact hinv
  | cons t rest' ih =>
    intro done s hsplit hclock hqlen hcap hinv hfresh
    have hlen : done.length + (rest'.length + 1) = full.length := by
      rw [hsplit, List.length_append, List.length_cons]
    have hnotfull : ¬ s.maxQueueSize ≤ s.queue.length := by omega
    obtain ⟨hq1, ht1, hc1, hm1⟩ := scheduleTask_proj_of_not_full s t hnotfull
    have hfresh_t : ¬ (s.queue.any (fun p => p.1 == t.id)) = true := by
      intro hany
      rcases List.any_eq_true.mp hany with ⟨p, hp, hb⟩
      exact hfresh t (List.mem_cons_self _ _) p hp (by simpa using hb)
    have hqueue1 : (scheduleTask t s).2.queue =
        s.queue ++ [(t.id, { priority := t.priority, timestamp := s.clock })] := by
      rw [hq1, pushQ_eq_insertA]
      unfold insertA
      rw [if_neg hfresh_t]
    have hndfull := hnd
    rw [hsplit, List.map_append, List.map_cons] at hndfull
    have hnd_parts := List.nodup_append.mp hndfull
    have htid_done : t.id ∉ done.map (·.id) := by
      intro hin
      exact hnd_parts.2.2 hin (List.mem_cons_self _ _)
    have htid_rest : t.id ∉ rest'.map (·.id) := by
      have := hnd_parts.2.1
      exact (List.nodup_cons.mp this).1
    have hidx : (full.map (·.id)).indexOf t.id = done.length := by
      rw [hsplit, List.map_append, List.map_cons,
        List.indexOf_append_of_not_mem htid_done, List.indexOf_cons_self]
      simp
    have hinv1 : InvP full (scheduleTask t s).2 := by
      constructor
      · rw [hq1, pushQ_eq_insertA]
        exact insertA_keys_nodup _ _ _ hinv.1
      · intro e he
        rw [hqueue1] at he
        rcases List.mem_append.mp he with he | he
        · obtain ⟨u, hu, hid, hprio, hts, st, hlook, hsttask⟩ := hinv.2 e he
          have hne : e.1 ≠ t.id := hfresh t (List.mem_cons_self _ _) e he
          refine ⟨u, hu, hid, hprio, hts, st, ?_, hsttask⟩
          rw [ht1, lookupA_insertA_ne s.tasks t.id e.1 _ hne]
          exact hlook
        · rcases List.mem_singleton.mp he with rfl
          refine ⟨t, ?_, rfl, rfl, ?_, ?_⟩
          · rw [hsplit]
            exact List.mem_append.mpr (Or.inr (List.mem_cons_self _ _))
          · rw [hidx, hclock]
          · refine ⟨{ task := t, scheduledAt := s.clock, attemptCount := 0 }, ?_, rfl⟩
            rw [ht1]
            exact lookupA_insertA_self _ _ _
    have hfresh1 : ∀ u ∈ rest', ∀ p ∈ (scheduleTask t s).2.queue, p.1 ≠ u.id := by
      intro u hu p hp
      rw [hqueue1] at hp
      rcases List.mem_append.mp hp with hp | hp
      · exact hfresh u (List.mem_cons_of_mem _ hu) p hp
      · rcases List.mem_singleton.mp hp with rfl
        intro hcon
        have hcon' : t.id = u.id := hcon
        refine htid_rest ?_
        rw [hcon']
        exact List.mem_map.mpr ⟨u, hu, rfl⟩
    have hqlen1 : (scheduleTask t s).2.queue.length ≤ (done ++ [t]).length := by
      rw [hqueue1]
      simp
      omega
    exact ih (done ++ [t]) (scheduleTask t s).2
      (by rw [hsplit]; simp)
      (by rw [hc1, hclock]; simp)
      hqlen1
      (by rw [hm1]; exact hcap)
      hinv1
      hfresh1

/-- C3: draining a freshly filled scheduler returns the tasks in
non-increasing priority order, and among equal priorities in the order the
caller scheduled them (the position in `ts`), for every schedule sequence
with distinct ids that fits in the queue. -/
theorem scheduler_priority_fifo (ts : List Task) (cap : Nat)
    (hnd : (ts.map (·.id)).Nodup) (hcap : ts.length ≤ cap) :
    (drainAll (scheduleAll ts (initSched cap))).Pairwise
      (fun a b =>
        b.priority.toNat ≤ a.priority.toNat ∧
        (a.priority = b.priority →
          (ts.map (·.id)).indexOf a.id ≤ (ts.map (·.id)).indexOf b.id)) := by
  have hinv : InvP ts (scheduleAll ts (initSched cap)) := by
    refine scheduleAll_invp ts hnd ts [] (initSched cap) rfl rfl (by simp [initSched])
      (by simpa [initSched] using hcap) ⟨by simp [initSched], ?_⟩ ?_
    · intro e he
      simp [initSched] at he
    · intro u _ p hp
      simp [initSched] at hp
  exact drain_pairwise ts _ _ hinv

/-- Witness for C3: one low- and two high-priority tasks; the drain is
priority-ordered with the two high-priority tasks in schedule order. -/
theorem scheduler_priority_fifo_witness :
    (drainAll (scheduleAll [mkTask 1 .low, mkTask 2 .high, mkTask 3 .high]
        (initSched 10))).Pairwise
      (fun a b =>
        b.priority.toNat ≤ a.priority.toNat ∧
        (a.priority = b.priority →
          (([mkTask 1 .low, mkTask 2 .high, mkTask 3 .high].map (·.id)).indexOf a.id ≤
           ([mkTask 1 .low, mkTask 2 .high, mkTask 3 .high].map (·.id)).indexOf b.id))) :=
  scheduler_priority_fifo [mkTask 1 .low, mkTask 2 .high, mkTask 3 .high] 10
    (by decide) (by decide)
